import Mathlib

/-! GunCon 3 frame codec.

A shallow embedding of `guncon3_decode` and `guncon3_usb_irq` from
`src/guncon3.c`, together with the properties of the checksum, the key
schedule and the three-round byte transform.

C `int` values are modelled as `Int`.  Sums and differences never leave the
32-bit range (every intermediate is a sum of a handful of bytes), so they are
plain integer operations; the bitwise operators act on the 32-bit two's
complement pattern of their operands.
-/

namespace Guncon3

/-- A buffer of fifteen `unsigned char`: one interrupt transfer of the device,
and also the caller's `data_decoded[15]`. -/
abbrev Frame := Fin 15 → Fin 256

/-- The session key `key[8]`. -/
def key : Fin 8 → Fin 256 := ![0x01, 0x12, 0x6f, 0x32, 0x24, 0x60, 0x17, 0x21]

/-- The substitution table `KEY_TABLE[320]`. -/
def KEY_TABLE : List (Fin 256) :=
  [0x75, 0xC3, 0x10, 0x31, 0xB5, 0xD3, 0x69, 0x84, 0x89, 0xBA, 0xD6, 0x89, 0xBD, 0x70, 0x19, 0x8E,
   0x58, 0xA8, 0x3D, 0x9B, 0x5D, 0xF0, 0x49, 0xE8, 0xAD, 0x9D, 0x7A, 0x0D, 0x7E, 0x24, 0xDA, 0xFC,
   0x0D, 0x14, 0xC5, 0x23, 0x91, 0x11, 0xF5, 0xC0, 0x4B, 0xCD, 0x44, 0x1C, 0xC5, 0x21, 0xDF, 0x61,
   0x54, 0xED, 0xA2, 0x81, 0xB7, 0xE5, 0x74, 0x94, 0xB0, 0x47, 0xEE, 0xF1, 0xA5, 0xBB, 0x21, 0xC8,
   0x91, 0xFD, 0x4C, 0x8B, 0x20, 0xC1, 0x7C, 0x09, 0x58, 0x14, 0xF6, 0x00, 0x52, 0x55, 0xBF, 0x41,
   0x75, 0xC0, 0x13, 0x30, 0xB5, 0xD0, 0x69, 0x85, 0x89, 0xBB, 0xD6, 0x88, 0xBC, 0x73, 0x18, 0x8D,
   0x58, 0xAB, 0x3D, 0x98, 0x5C, 0xF2, 0x48, 0xE9, 0xAC, 0x9F, 0x7A, 0x0C, 0x7C, 0x25, 0xD8, 0xFF,
   0xDC, 0x7D, 0x08, 0xDB, 0xBC, 0x18, 0x8C, 0x1D, 0xD6, 0x3C, 0x35, 0xE1, 0x2C, 0x14, 0x8E, 0x64,
   0x83, 0x39, 0xB0, 0xE4, 0x4E, 0xF7, 0x51, 0x7B, 0xA8, 0x13, 0xAC, 0xE9, 0x43, 0xC0, 0x08, 0x25,
   0x0E, 0x15, 0xC4, 0x20, 0x93, 0x13, 0xF5, 0xC3, 0x48, 0xCC, 0x47, 0x1C, 0xC5, 0x20, 0xDE, 0x60,
   0x55, 0xEE, 0xA0, 0x40, 0xB4, 0xE7, 0x74, 0x95, 0xB0, 0x46, 0xEC, 0xF0, 0xA5, 0xB8, 0x23, 0xC8,
   0x04, 0x06, 0xFC, 0x28, 0xCB, 0xF8, 0x17, 0x2C, 0x25, 0x1C, 0xCB, 0x18, 0xE3, 0x6C, 0x80, 0x85,
   0xDD, 0x7E, 0x09, 0xD9, 0xBC, 0x19, 0x8F, 0x1D, 0xD4, 0x3D, 0x37, 0xE1, 0x2F, 0x15, 0x8D, 0x64,
   0x06, 0x04, 0xFD, 0x29, 0xCF, 0xFA, 0x14, 0x2E, 0x25, 0x1F, 0xC9, 0x18, 0xE3, 0x6D, 0x81, 0x84,
   0x80, 0x3B, 0xB1, 0xE5, 0x4D, 0xF7, 0x51, 0x78, 0xA9, 0x13, 0xAD, 0xE9, 0x80, 0xC1, 0x0B, 0x25,
   0x93, 0xFC, 0x4D, 0x89, 0x23, 0xC2, 0x7C, 0x0B, 0x59, 0x15, 0xF6, 0x01, 0x50, 0x55, 0xBF, 0x81,
   0x75, 0xC3, 0x10, 0x31, 0xB5, 0xD3, 0x69, 0x84, 0x89, 0xBA, 0xD6, 0x89, 0xBD, 0x70, 0x19, 0x8E,
   0x58, 0xA8, 0x3D, 0x9B, 0x5D, 0xF0, 0x49, 0xE8, 0xAD, 0x9D, 0x7A, 0x0D, 0x7E, 0x24, 0xDA, 0xFC,
   0x0D, 0x14, 0xC5, 0x23, 0x91, 0x11, 0xF5, 0xC0, 0x4B, 0xCD, 0x44, 0x1C, 0xC5, 0x21, 0xDF, 0x61,
   0x54, 0xED, 0xA2, 0x81, 0xB7, 0xE5, 0x74, 0x94, 0xB0, 0x47, 0xEE, 0xF1, 0xA5, 0xBB, 0x21, 0xC8]

/-- Integer promotion of an `unsigned char`. -/
def u8 (b : Fin 256) : Int := (b.val : Int)

/-- The 32-bit two's complement pattern of an `int`. -/
def toU32 (x : Int) : Nat := (x % 4294967296).toNat

/-- The `int` carried by a 32-bit pattern. -/
def ofU32 (n : Nat) : Int := if n < 2147483648 then (n : Int) else (n : Int) - 4294967296

/-- The C operator `^` on `int`. -/
def int_xor (a b : Int) : Int := ofU32 (toU32 a ^^^ toU32 b)

/-- The C operator `&` on `int`. -/
def int_and (a b : Int) : Int := ofU32 (toU32 a &&& toU32 b)

/-- Conversion of an `int` to `unsigned char` on a store. -/
def toUChar (v : Int) : Fin 256 := ⟨(v % 256).toNat, by omega⟩

/-- Read `KEY_TABLE[i]`; `none` when `i` is outside the table. -/
def tableRead (i : Int) : Option Int :=
  if 0 ≤ i then (KEY_TABLE.get? i.toNat).map u8 else none

/-- Read `key[i]`; `none` when `i` is outside the key. -/
def keyRead (i : Int) : Option Int :=
  if h : 0 ≤ i ∧ i < 8 then some (u8 (key ⟨i.toNat, by omega⟩)) else none

/-- Read `data[i]`; `none` when `i` is outside the frame. -/
def frameRead (data : Frame) (i : Int) : Option Int :=
  if h : 0 ≤ i ∧ i < 15 then some (u8 (data ⟨i.toNat, by omega⟩)) else none

/-- Store `data_decoded[i] = v`; `none` when `i` is outside the buffer. -/
def frameWrite (buf : Frame) (i : Int) (v : Int) : Option Frame :=
  if 0 ≤ i ∧ i < 15 then some (fun j => if (j.val : Int) = i then toUChar v else buf j) else none

/-- The value of `b_sum` after line 121. -/
def b_sum (data : Frame) : Int :=
  let b := int_xor (u8 (data 13)) (u8 (data 12))
  let b := b + u8 (data 11) + u8 (data 10) - u8 (data 9) - u8 (data 8)
  let b := int_xor b (u8 (data 7))
  int_and b 0xFF

/-- The value of `a_sum` after line 127. -/
def a_sum (data : Frame) : Int :=
  let a := int_xor (u8 (data 6)) (b_sum data)
  let a := a - u8 (data 5) - u8 (data 4)
  let a := int_xor a (u8 (data 3))
  let a := a + u8 (data 2) + u8 (data 1) - u8 (data 0)
  int_and a 0xFF

/-- The value of `key_offset` after line 137, before `data[14]` enters. -/
def key_offset_base : Int :=
  let o := int_xor (u8 (key 1)) (u8 (key 2))
  let o := o - u8 (key 3) - u8 (key 4)
  let o := int_xor o (u8 (key 5))
  o + u8 (key 6) - u8 (key 7)

/-- The value of `key_offset` after line 140, on entry to the loop. -/
def key_offset_init (data : Frame) : Int :=
  let o := int_xor key_offset_base (u8 (data 14))
  let o := o + 0x26
  int_and o 0xFF

/-- The loop variables shared by all rounds, with the list of
`(table index, key index)` pairs read so far. -/
structure LoopState where
  key_offset : Int
  key_index : Int
  trace : List (Int × Int)

/-- The byte operation selected by `bkey & 3` (lines 156-161). -/
def byte_op (bkey keyr byte : Int) : Int :=
  if int_and bkey 3 = 0 then (byte - bkey) - keyr
  else if int_and bkey 3 = 1 then (byte + bkey) + keyr
  else int_xor (int_xor byte bkey) keyr

/-- One pass through the body of the inner loop (lines 149-161). -/
def round (s : LoopState) (byte : Int) : Option (LoopState × Int) :=
  let key_offset := s.key_offset - 1
  match tableRead (key_offset + 0x41) with
  | none => none
  | some bkey =>
    match keyRead s.key_index with
    | none => none
    | some keyr =>
      let key_index := if s.key_index - 1 = 0 then 7 else s.key_index - 1
      some (⟨key_offset, key_index, s.trace ++ [(key_offset + 0x41, s.key_index)]⟩,
            byte_op bkey keyr byte)

/-- The inner loop `for (y = 4; y > 1; y--)`, entered with the given `y`. -/
def innerLoop : Nat → LoopState → Int → Option (LoopState × Int)
  | 0, s, byte => some (s, byte)
  | y + 1, s, byte =>
    if y + 1 > 1 then
      match round s byte with
      | none => none
      | some (s1, byte1) => innerLoop y s1 byte1
    else some (s, byte)

/-- The outer loop `for (x = 12; x >= 0; x--)`; the first argument is `x + 1`. -/
def outerLoop (data : Frame) : Nat → LoopState → Frame → Option (LoopState × Frame)
  | 0, s, out => some (s, out)
  | x + 1, s, out =>
    match frameRead data x with
    | none => none
    | some byte =>
      match innerLoop 4 s byte with
      | none => none
      | some (s1, byte1) =>
        match frameWrite out x byte1 with
        | none => none
        | some out1 => outerLoop data x s1 out1

/-- The loops of lines 134-164 run on a frame, whatever its checksum. -/
def decode_rounds (data data_decoded : Frame) : Option (LoopState × Frame) :=
  outerLoop data 13 ⟨key_offset_init data, 4, []⟩ data_decoded

/-- The function `guncon3_decode`: the returned status, the contents of
`data_decoded` afterwards and the table and key indices read; `none` when an
array is accessed outside its bounds. -/
def guncon3_decode (data data_decoded : Frame) : Option (Int × Frame × List (Int × Int)) :=
  if a_sum data ≠ u8 (key 7) then some (-1, data_decoded, [])
  else
    match decode_rounds data data_decoded with
    | none => none
    | some (s, out) => some (0, out, s.trace)

/-- A frame given by its bytes in order. -/
def frameOf (l : List (Fin 256)) : Frame := fun i => l.getD i.val 0


/-! ## The specification's 8-bit reading -/

/-- The checksum byte `b` of the specification, every step in 8-bit wrapping
arithmetic. -/
def spec_b (raw : Frame) : Fin 256 :=
  ((raw 13 ^^^ raw 12) + raw 11 + raw 10 - raw 9 - raw 8) ^^^ raw 7

/-- The checksum byte `a` of the specification, every step in 8-bit wrapping
arithmetic. -/
def spec_a (raw : Frame) : Fin 256 :=
  (((raw 6 ^^^ spec_b raw) - raw 5 - raw 4) ^^^ raw 3) + raw 2 + raw 1 - raw 0

/-- One round on a byte with each pair of operations reduced modulo 256. -/
def round8 (bkey keyr byte : Fin 256) : Fin 256 :=
  if bkey.val % 4 = 0 then (byte - bkey) - keyr
  else if bkey.val % 4 = 1 then (byte + bkey) + keyr
  else (byte ^^^ bkey) ^^^ keyr

/-! ## Closed forms of the loop state -/

/-- The table entry at an index, `0` outside the table. -/
def tableGet (i : Int) : Fin 256 := KEY_TABLE.getD i.toNat 0

/-- The key byte at an index, `0` outside the key. -/
def keyGet (i : Int) : Fin 256 :=
  if h : 0 ≤ i ∧ i < 8 then key ⟨i.toNat, by omega⟩ else 0

/-- The key index `r` rounds after it was `ki`. -/
def kiAfter (ki : Int) (r : Nat) : Int := (ki - 1 - (r : Int)) % 7 + 1

/-- The `(table index, key index)` pairs of `m` rounds started with offset
`off` and key index `ki`. -/
def traceOf (off ki : Int) (m : Nat) : List (Int × Int) :=
  (List.range m).map (fun (r : Nat) => (off - ((r : Int) + 1) + 0x41, kiAfter ki r))

/-- The `int` value of the working byte after the three rounds started with
offset `off` and key index `ki`. -/
def byte3 (off ki byte : Int) : Int :=
  byte_op (u8 (tableGet (off - 3 + 0x41))) (u8 (keyGet (kiAfter ki 2)))
    (byte_op (u8 (tableGet (off - 2 + 0x41))) (u8 (keyGet (kiAfter ki 1)))
      (byte_op (u8 (tableGet (off - 1 + 0x41))) (u8 (keyGet ki)) byte))

/-- The 8-bit round that reads the table and key entries of one trace pair. -/
def roundAt8 (byte : Fin 256) (p : Int × Int) : Fin 256 :=
  round8 (tableGet p.1) (keyGet p.2) byte

/-- The three rounds that the trace `tr` of a full decode assigns to payload
index `i` (trace positions `3 * (12 - i)` onwards), applied to `raw[i]` in
8-bit arithmetic. -/
def rounds8 (tr : List (Int × Int)) (raw : Frame) (i : Fin 15) : Fin 256 :=
  ((tr.drop (3 * (12 - i.val))).take 3).foldl roundAt8 (raw i)

/-- The encoded form of the payload `1, 2, ..., 13` with `raw[14] = 0`. -/
def sampleFrame : Frame :=
  frameOf [92, 211, 204, 230, 211, 72, 101, 204, 61, 121, 240, 223, 194, 35, 0]

/-! ## The encoder -/

/-- The inverse of `round8` for the same table byte and round key. -/
def unround8 (bkey keyr byte : Fin 256) : Fin 256 :=
  if bkey.val % 4 = 0 then (byte + keyr) + bkey
  else if bkey.val % 4 = 1 then (byte - keyr) - bkey
  else (byte ^^^ keyr) ^^^ bkey

/-- The initial table offset of the frames whose byte 14 is `e`. -/
def offsetFor (e : Fin 256) : Int := key_offset_init (fun _ => e)

/-- The raw byte at payload index `i` that decodes to `d`: the three rounds of
that index undone in reverse order. -/
def encode_byte (e : Fin 256) (i : Nat) (d : Fin 256) : Fin 256 :=
  let off := offsetFor e - 3 * ((12 - i : Nat) : Int)
  let ki := kiAfter 4 (3 * (12 - i))
  unround8 (tableGet (off - 1 + 0x41)) (keyGet ki)
    (unround8 (tableGet (off - 2 + 0x41)) (keyGet (kiAfter ki 1))
      (unround8 (tableGet (off - 3 + 0x41)) (keyGet (kiAfter ki 2)) d))

/-- The encoded payload bytes with `e` as byte 14 and byte 13 still zero. -/
def encode_body (d : Fin 13 → Fin 256) (e : Fin 256) : Frame :=
  fun j => if h : j.val < 13 then encode_byte e j.val (d ⟨j.val, h⟩)
    else if j.val = 14 then e else 0

/-- The value of byte 13 that makes the checksum of a frame equal `key[7]`. -/
def checksum_fix (r : Frame) : Fin 256 :=
  ((((((key 7 + r 0 - r 1 - r 2) ^^^ r 3) + r 4 + r 5) ^^^ r 6) ^^^ r 7)
    - r 10 - r 11 + r 8 + r 9) ^^^ r 12

/-- The encoder: a raw frame with byte 14 equal to `e` that authenticates and
decodes to the payload `d`. -/
def encode (d : Fin 13 → Fin 256) (e : Fin 256) : Frame :=
  fun j => if j.val = 13 then checksum_fix (encode_body d e) else encode_body d e j

/-! ## The frame callback -/

/-- The C operator `|` on `int`. -/
def int_or (a b : Int) : Int := ofU32 (toU32 a ||| toU32 b)

/-- The C operator `<<` on `int`. -/
def int_shl (a : Int) (n : Nat) : Int := ofU32 ((toU32 a <<< n) % 4294967296)

/-- Conversion of an `int` to `int16_t` on assignment. -/
def toInt16 (v : Int) : Int := (v + 32768) % 65536 - 32768

/-- The absolute axes reported by the callback. -/
inductive AbsAxis
  | ABS_X | ABS_Y | ABS_RX | ABS_RY | ABS_HAT0X | ABS_HAT0Y
  deriving DecidableEq

/-- The key codes reported by the callback. -/
inductive KeyCode
  | BTN_LEFT | BTN_MIDDLE | BTN_RIGHT | BTN_WEST | BTN_Z | BTN_TL | BTN_TR
  | BTN_SELECT | BTN_START | BTN_TL2
  deriving DecidableEq

/-- The calls the callback makes on the input device and on the transport. -/
inductive Action
  | input_report_abs (axis : AbsAxis) (value : Int)
  | input_report_key (code : KeyCode) (value : Int)
  | input_sync
  | usb_submit_urb
  deriving DecidableEq

/-- The fields of the `urb` that the callback reads; `transfer_buffer` holds
the first fifteen bytes of the transfer. -/
structure Urb where
  status : Int
  actual_length : Nat
  transfer_buffer : Frame

/-- Linux errno values tested by the callback. -/
def ENOENT : Int := 2
def EPIPE : Int := 32
def ETIME : Int := 62
def ECONNRESET : Int := 104
def ESHUTDOWN : Int := 108

def GUNCON3_TRIGGER : Nat := 0x00002000
def GUNCON3_BTN_A1 : Nat := 0x00000004
def GUNCON3_BTN_A2 : Nat := 0x00000002
def GUNCON3_BTN_A3 : Nat := 0x00800000
def GUNCON3_BTN_B1 : Nat := 0x00000400
def GUNCON3_BTN_B2 : Nat := 0x00000200
def GUNCON3_BTN_B3 : Nat := 0x00400000
def GUNCON3_BTN_C1 : Nat := 0x00008000
def GUNCON3_BTN_C2 : Nat := 0x00000008
def GUNCON3_BTN_OUT_RANGE : Nat := 0x00000800

/-- The value of `x` after line 223. -/
def aim_x (d : Frame) : Int :=
  toInt16 (int_or (int_shl (u8 (d 4)) 8) (u8 (d 3)))

/-- The value of `y` after line 225. -/
def aim_y (d : Frame) : Int :=
  let y := toInt16 (int_or (int_shl (u8 (d 6)) 8) (u8 (d 5)))
  toInt16 (y * (-1))

/-- The value of `buttons` after line 243 (`unsigned long`, no overflow). -/
def buttons (d : Frame) : Nat :=
  let b := (d 2).val
  let b := b <<< 8
  let b := b + (d 1).val
  let b := b <<< 8
  b + (d 0).val

/-- The reports of lines 234-264 for a decoded buffer. -/
def report (d : Frame) : List Action :=
  [Action.input_report_abs AbsAxis.ABS_X (aim_x d),
   Action.input_report_abs AbsAxis.ABS_Y (aim_y d),
   Action.input_report_abs AbsAxis.ABS_RX (u8 (d 9)),
   Action.input_report_abs AbsAxis.ABS_RY (u8 (d 10)),
   Action.input_report_abs AbsAxis.ABS_HAT0X (u8 (d 11)),
   Action.input_report_abs AbsAxis.ABS_HAT0Y (u8 (d 12)),
   Action.input_report_key KeyCode.BTN_LEFT ((buttons d &&& GUNCON3_TRIGGER : Nat) : Int),
   Action.input_report_key KeyCode.BTN_MIDDLE ((buttons d &&& GUNCON3_BTN_A1 : Nat) : Int),
   Action.input_report_key KeyCode.BTN_RIGHT ((buttons d &&& GUNCON3_BTN_A2 : Nat) : Int),
   Action.input_report_key KeyCode.BTN_WEST ((buttons d &&& GUNCON3_BTN_A3 : Nat) : Int),
   Action.input_report_key KeyCode.BTN_Z ((buttons d &&& GUNCON3_BTN_B1 : Nat) : Int),
   Action.input_report_key KeyCode.BTN_TL ((buttons d &&& GUNCON3_BTN_B2 : Nat) : Int),
   Action.input_report_key KeyCode.BTN_TR ((buttons d &&& GUNCON3_BTN_B3 : Nat) : Int),
   Action.input_report_key KeyCode.BTN_SELECT ((buttons d &&& GUNCON3_BTN_C1 : Nat) : Int),
   Action.input_report_key KeyCode.BTN_START ((buttons d &&& GUNCON3_BTN_C2 : Nat) : Int),
   Action.input_report_key KeyCode.BTN_TL2 ((buttons d &&& GUNCON3_BTN_OUT_RANGE : Nat) : Int),
   Action.input_sync]

/-- The callback `guncon3_usb_irq`: the calls it makes, in order.  The second
argument is the initial content of the local `data_decoded`; `none` when the
decoder accesses an array outside its bounds. -/
def guncon3_usb_irq (urb : Urb) (data_decoded : Frame) : Option (List Action) :=
  if urb.status = 0 then
    if urb.actual_length = 15 then
      match guncon3_decode urb.transfer_buffer data_decoded with
      | none => none
      | some (status, decoded, _) =>
        if status < 0 then some []
        else some (report decoded ++ [Action.usb_submit_urb])
    else some [Action.usb_submit_urb]
  else if urb.status = -ETIME then some []
  else if urb.status = -ECONNRESET ∨ urb.status = -ENOENT ∨ urb.status = -ESHUTDOWN
      ∨ urb.status = -EPIPE then some []
  else some [Action.usb_submit_urb]

/-- The `ABS_Y` values among the calls of the callback. -/
def abs_y_values (acts : List Action) : List Int :=
  acts.filterMap (fun a =>
    match a with
    | Action.input_report_abs AbsAxis.ABS_Y v => some v
    | _ => none)

/-- The signed 16-bit little-endian integer with low byte `lo` and high byte
`hi`. -/
def i16_from_le_bytes (lo hi : Fin 256) : Int :=
  if hi.val < 128 then (lo.val : Int) + 256 * (hi.val : Int)
  else (lo.val : Int) + 256 * (hi.val : Int) - 65536

/-- The all-zero frame, whose checksum is `0`. -/
def zeroFrame : Frame := fun _ => 0

/-- An authentic frame whose payload has `decoded[5] = 0x00`,
`decoded[6] = 0x80` and zero elsewhere. -/
def minYFrame : Frame :=
  frameOf [93, 213, 193, 42, 214, 74, 172, 196, 54, 111, 229, 227, 183, 208, 0]

/-! ## Single-bit corruption -/

/-- The status returned by `guncon3_decode`. -/
def decode_status (data data_decoded : Frame) : Option Int :=
  (guncon3_decode data data_decoded).map Prod.fst

/-- The frame `raw` with bit `k` of byte `p` inverted. -/
def flip_bit (raw : Frame) (p : Fin 15) (k : Fin 8) : Frame :=
  Function.update raw p (raw p ^^^ Fin.ofNat (2 ^ k.val))

/-! ## The decoder with an 8-bit wrapping offset -/

/-- The loop variables of a decoder that keeps the offset as an 8-bit wrapping
integer. -/
structure WrapState where
  offset : Fin 256
  key_index : Int
  trace : List (Int × Int)

/-- One round with the offset decremented modulo 256 and the table index
`offset + 0x41` taken modulo 256. -/
def round_wrap (s : WrapState) (byte : Int) : Option (WrapState × Int) :=
  let offset := s.offset - 1
  let index := offset + 0x41
  match tableRead (u8 index) with
  | none => none
  | some bkey =>
    match keyRead s.key_index with
    | none => none
    | some keyr =>
      let key_index := if s.key_index - 1 = 0 then 7 else s.key_index - 1
      some (⟨offset, key_index, s.trace ++ [(u8 index, s.key_index)]⟩,
            byte_op bkey keyr byte)

/-- The inner loop over `round_wrap`. -/
def innerLoop_wrap : Nat → WrapState → Int → Option (WrapState × Int)
  | 0, s, byte => some (s, byte)
  | y + 1, s, byte =>
    if y + 1 > 1 then
      match round_wrap s byte with
      | none => none
      | some (s1, byte1) => innerLoop_wrap y s1 byte1
    else some (s, byte)

/-- The outer loop over `innerLoop_wrap`; the first argument is `x + 1`. -/
def outerLoop_wrap (data : Frame) : Nat → WrapState → Frame → Option (WrapState × Frame)
  | 0, s, out => some (s, out)
  | x + 1, s, out =>
    match frameRead data x with
    | none => none
    | some byte =>
      match innerLoop_wrap 4 s byte with
      | none => none
      | some (s1, byte1) =>
        match frameWrite out x byte1 with
        | none => none
        | some out1 => outerLoop_wrap data x s1 out1

/-- The loops of the wrapping decoder run on a frame. -/
def decode_rounds_wrap (data data_decoded : Frame) : Option (WrapState × Frame) :=
  outerLoop_wrap data 13 ⟨toUChar (key_offset_init data), 4, []⟩ data_decoded

/-- The wrapping decoder with the checksum gate of `guncon3_decode`. -/
def decode_wrap (data data_decoded : Frame) : Option (Int × Frame × List (Int × Int)) :=
  if a_sum data ≠ u8 (key 7) then some (-1, data_decoded, [])
  else
    match decode_rounds_wrap data data_decoded with
    | none => none
    | some (s, out) => some (0, out, s.trace)

/-- The trace of `m` rounds of the wrapping decoder started from the offset
`off mod 256` and key index `ki`. -/
def traceWrap (off ki : Int) (m : Nat) : List (Int × Int) :=
  (traceOf off ki m).map (fun p => (p.1 % 256, p.2))
/-! ## Bit-level facts about the `int` operators -/

theorem xor_mod_256 (m n : Nat) : (m ^^^ n) % 256 = (m % 256) ^^^ (n % 256) := by
  apply Nat.eq_of_testBit_eq
  intro i
  have h : (256 : Nat) = 2 ^ 8 := by norm_num
  rw [h, Nat.testBit_mod_two_pow, Nat.testBit_xor, Nat.testBit_xor, Nat.testBit_mod_two_pow,
    Nat.testBit_mod_two_pow]
  cases decide (i < 8) <;> simp

theorem and_255 (m : Nat) : m &&& 255 = m % 256 :=
  Nat.and_pow_two_sub_one_eq_mod m 8

theorem and_3 (m : Nat) : m &&& 3 = m % 4 :=
  Nat.and_pow_two_sub_one_eq_mod m 2

theorem fin_xor_val (a b : Fin 256) : (a ^^^ b).val = a.val ^^^ b.val := by
  have h : (a ^^^ b).val = (a.val ^^^ b.val) % 256 := by
    cases a; cases b; rfl
  rw [h]
  exact Nat.mod_eq_of_lt (Nat.xor_lt_two_pow (n := 8) a.isLt b.isLt)

theorem toUChar_u8 (b : Fin 256) : toUChar (u8 b) = b := by
  apply Fin.ext
  have := b.isLt
  simp only [toUChar, u8]
  omega

theorem u8_toUChar (v : Int) : u8 (toUChar v) = v % 256 := by
  simp only [toUChar, u8]
  omega

theorem toUChar_add (a b : Int) : toUChar (a + b) = toUChar a + toUChar b := by
  apply Fin.ext
  simp only [toUChar, Fin.val_add]
  omega

theorem toUChar_sub (a b : Int) : toUChar (a - b) = toUChar a - toUChar b := by
  apply Fin.ext
  simp only [toUChar, Fin.sub_def]
  omega

theorem toUChar_int_xor (a b : Int) : toUChar (int_xor a b) = toUChar a ^^^ toUChar b := by
  apply Fin.ext
  rw [fin_xor_val]
  have h := xor_mod_256 (toU32 a) (toU32 b)
  have ha : toU32 a % 256 = (toUChar a).val := by simp only [toU32, toUChar]; omega
  have hb : toU32 b % 256 = (toUChar b).val := by simp only [toU32, toUChar]; omega
  rw [ha, hb] at h
  rw [← h]
  simp only [toUChar, int_xor, ofU32]
  split <;> omega

theorem int_and_255 (a : Int) : int_and a 0xFF = a % 256 := by
  have h : toU32 a &&& toU32 0xFF = toU32 a % 256 := by
    have : toU32 0xFF = 255 := by decide
    rw [this, and_255]
  unfold int_and
  rw [h]
  simp only [ofU32, toU32]
  split <;> omega

theorem int_and_3 (b : Fin 256) : int_and (u8 b) 3 = ((b.val % 4 : Nat) : Int) := by
  have hb := b.isLt
  have h : toU32 (u8 b) &&& toU32 3 = b.val % 4 := by
    have h3 : toU32 3 = 3 := by decide
    have hv : toU32 (u8 b) = b.val := by simp only [toU32, u8]; omega
    rw [h3, hv, and_3]
  unfold int_and
  rw [h]
  simp only [ofU32]
  split <;> omega

/-! ## The loops in closed form -/

theorem KEY_TABLE_length : KEY_TABLE.length = 320 := by
  set_option maxRecDepth 100000 in decide

theorem tableRead_eq (i : Int) (h0 : 0 ≤ i) (h1 : i < 320) :
    tableRead i = some (u8 (tableGet i)) := by
  have hl : i.toNat < KEY_TABLE.length := by rw [KEY_TABLE_length]; omega
  simp [tableRead, tableGet, h0, List.getD_eq_getElem?_getD, List.getElem?_eq_getElem hl]

theorem keyRead_eq (i : Int) (h0 : 0 ≤ i) (h1 : i < 8) :
    keyRead i = some (u8 (keyGet i)) := by
  simp [keyRead, keyGet, h0, h1]

theorem kiAfter_zero (ki : Int) (h1 : 1 ≤ ki) (h7 : ki ≤ 7) : kiAfter ki 0 = ki := by
  simp only [kiAfter]; omega

theorem kiAfter_bounds (ki : Int) (r : Nat) : 1 ≤ kiAfter ki r ∧ kiAfter ki r ≤ 7 := by
  simp only [kiAfter]; omega

theorem kiAfter_add (ki : Int) (a b : Nat) :
    kiAfter (kiAfter ki a) b = kiAfter ki (a + b) := by
  simp only [kiAfter]; push_cast; omega

theorem round_eq (s : LoopState) (byte : Int)
    (h1 : 1 ≤ s.key_index) (h7 : s.key_index ≤ 7)
    (h0 : 0 ≤ s.key_offset - 1 + 0x41) (h320 : s.key_offset - 1 + 0x41 < 320) :
    round s byte = some (⟨s.key_offset - 1, kiAfter s.key_index 1,
        s.trace ++ [(s.key_offset - 1 + 0x41, s.key_index)]⟩,
      byte_op (u8 (tableGet (s.key_offset - 1 + 0x41))) (u8 (keyGet s.key_index)) byte) := by
  have hk : (if s.key_index - 1 = 0 then 7 else s.key_index - 1) = kiAfter s.key_index 1 := by
    simp only [kiAfter]; split <;> omega
  simp only [round, tableRead_eq _ h0 h320, keyRead_eq _ (by omega : 0 ≤ s.key_index) (by omega), hk]

theorem traceOf_three (off ki : Int) (h1 : 1 ≤ ki) (h7 : ki ≤ 7) :
    traceOf off ki 3 =
      [(off - 1 + 0x41, ki), (off - 2 + 0x41, kiAfter ki 1), (off - 3 + 0x41, kiAfter ki 2)] := by
  have hz := kiAfter_zero ki h1 h7
  simp [traceOf, List.range_succ, hz]

theorem traceOf_add (off ki : Int) (a b : Nat) :
    traceOf off ki (a + b) = traceOf off ki a ++ traceOf (off - a) (kiAfter ki a) b := by
  simp only [traceOf, List.range_add, List.map_append, List.map_map]
  congr 1
  apply List.map_congr_left
  intro r _
  simp only [Function.comp, kiAfter_add]
  congr 1
  push_cast
  omega

theorem innerLoop_eq (s : LoopState) (byte : Int)
    (h1 : 1 ≤ s.key_index) (h7 : s.key_index ≤ 7)
    (h0 : 0 ≤ s.key_offset - 3 + 0x41) (h320 : s.key_offset - 1 + 0x41 < 320) :
    innerLoop 4 s byte = some (⟨s.key_offset - 3, kiAfter s.key_index 3,
        s.trace ++ traceOf s.key_offset s.key_index 3⟩,
      byte3 s.key_offset s.key_index byte) := by
  have b1 := kiAfter_bounds s.key_index 1
  have b2 := kiAfter_bounds s.key_index 2
  have e1 : s.key_offset - 1 - 1 = s.key_offset - 2 := by omega
  have e2 : s.key_offset - 2 - 1 = s.key_offset - 3 := by omega
  simp only [innerLoop]
  rw [if_pos (by omega), round_eq s byte h1 h7 (by omega) h320]
  simp only []
  rw [if_pos (by omega), round_eq _ _ b1.1 b1.2 (by simp only []; omega) (by simp only []; omega)]
  simp only []
  rw [if_pos (by omega), round_eq _ _ (by simp only [kiAfter_add]; exact b2.1)
    (by simp only [kiAfter_add]; exact b2.2) (by simp only []; omega) (by simp only []; omega)]
  simp only [if_neg (by omega : ¬ (0 + 1 > 1)), kiAfter_add, e1, e2, traceOf_three _ _ h1 h7,
    byte3, List.append_assoc, List.singleton_append, List.cons_append, List.nil_append]

theorem frameRead_eq (data : Frame) (i : Nat) (h : i < 15) :
    frameRead data (i : Int) = some (u8 (data ⟨i, h⟩)) := by
  have h2 : (0 : Int) ≤ (i : Int) ∧ (i : Int) < 15 := by omega
  simp [frameRead, h2]

theorem frameWrite_eq (buf : Frame) (i : Nat) (h : i < 15) (v : Int) :
    frameWrite buf (i : Int) v = some (fun j => if j.val = i then toUChar v else buf j) := by
  have h2 : (0 : Int) ≤ (i : Int) ∧ (i : Int) < 15 := by omega
  simp [frameWrite, h2]


theorem outerLoop_zero (data : Frame) (s : LoopState) (out : Frame) :
    outerLoop data 0 s out = some (s, out) := rfl

theorem outerLoop_succ (data : Frame) (x : Nat) (s : LoopState) (out : Frame) :
    outerLoop data (x + 1) s out =
      match frameRead data x with
      | none => none
      | some byte =>
        match innerLoop 4 s byte with
        | none => none
        | some (s1, byte1) =>
          match frameWrite out x byte1 with
          | none => none
          | some out1 => outerLoop data x s1 out1 := rfl

/-- The decoded byte at payload index `j` of a loop entered with `x + 1 = n`,
offset `off` and key index `ki`. -/
theorem outerLoop_eq (data : Frame) : ∀ (n : Nat) (s : LoopState) (out : Frame),
    n ≤ 15 → 1 ≤ s.key_index → s.key_index ≤ 7 →
    0 ≤ s.key_offset - 3 * (n : Int) + 0x41 → s.key_offset + 0x41 ≤ 320 →
    outerLoop data n s out = some (⟨s.key_offset - 3 * (n : Int), kiAfter s.key_index (3 * n),
        s.trace ++ traceOf s.key_offset s.key_index (3 * n)⟩,
      fun j => if j.val < n then
          toUChar (byte3 (s.key_offset - 3 * ((n - 1 - j.val : Nat) : Int))
            (kiAfter s.key_index (3 * (n - 1 - j.val))) (u8 (data j)))
        else out j) := by
  intro n
  induction n with
  | zero =>
    intro s out _ h1 h7 _ _
    have ht : traceOf s.key_offset s.key_index (3 * 0) = [] := rfl
    have hf : (fun j : Fin 15 => if j.val < 0 then
          toUChar (byte3 (s.key_offset - 3 * ((0 - 1 - j.val : Nat) : Int))
            (kiAfter s.key_index (3 * (0 - 1 - j.val))) (u8 (data j)))
        else out j) = out := by
      funext j
      rw [if_neg (Nat.not_lt_zero _)]
    rw [hf, ht, Nat.mul_zero, kiAfter_zero _ h1 h7, List.append_nil]
    simp only [outerLoop_zero, Nat.cast_zero, mul_zero, sub_zero]
  | succ x ih =>
    intro s out hn h1 h7 h0 h320
    have hx : x < 15 := by omega
    have b3 := kiAfter_bounds s.key_index 3
    rw [outerLoop_succ, frameRead_eq data x hx]
    simp only []
    rw [innerLoop_eq s _ h1 h7 (by push_cast at h0; omega) (by omega)]
    simp only []
    rw [frameWrite_eq out x hx]
    simp only []
    rw [ih _ _ (by omega) b3.1 b3.2 (by simp only []; push_cast at h0; omega)
      (by simp only []; omega)]
    simp only [kiAfter_add]
    congr 1
    congr 1
    · congr 1
      · push_cast; omega
      · congr 1; omega
      · rw [List.append_assoc, show 3 * (x + 1) = 3 + 3 * x by omega, traceOf_add]
        simp
    · funext j
      by_cases hj : j.val < x
      · have hj2 : j.val < x + 1 := by omega
        simp only [hj, hj2, if_true]
        have e1 : 3 + 3 * (x - 1 - j.val) = 3 * (x + 1 - 1 - j.val) := by omega
        have e2 : s.key_offset - 3 - 3 * ((x - 1 - j.val : Nat) : Int)
            = s.key_offset - 3 * ((x + 1 - 1 - j.val : Nat) : Int) := by omega
        rw [e1, e2]
      · by_cases hj3 : j.val = x
        · have hj2 : j.val < x + 1 := by omega
          have hj4 : j = ⟨x, hx⟩ := Fin.ext hj3
          simp only [hj, hj2, hj3, if_true, if_false]
          subst hj4
          simp [kiAfter_zero _ h1 h7]
        · have hj2 : ¬ j.val < x + 1 := by omega
          simp only [hj, hj2, hj3, if_false]

/-! ## The checksum and the initial offset -/

theorem b_sum_eq (data : Frame) : b_sum data = u8 (spec_b data) := by
  simp only [b_sum, int_and_255, ← u8_toUChar, toUChar_int_xor, toUChar_add, toUChar_sub,
    toUChar_u8, spec_b]

theorem a_sum_eq (data : Frame) : a_sum data = u8 (spec_a data) := by
  simp only [a_sum, b_sum_eq, int_and_255, ← u8_toUChar, toUChar_int_xor, toUChar_add,
    toUChar_sub, toUChar_u8, spec_a]

theorem u8_injective (a b : Fin 256) (h : u8 a = u8 b) : a = b := by
  apply Fin.ext
  simp only [u8] at h
  omega

theorem key_offset_base_eq : key_offset_base = 0x3D := by decide

theorem key_offset_init_eq (data : Frame) :
    key_offset_init data = u8 (((0x3D : Fin 256) ^^^ data 14) + 0x26) := by
  have h : (0x3D : Int) = u8 (0x3D : Fin 256) := by decide
  have h2 : (0x26 : Int) = u8 (0x26 : Fin 256) := by decide
  simp only [key_offset_init, key_offset_base_eq, int_and_255]
  rw [h, h2]
  simp only [← u8_toUChar, toUChar_int_xor, toUChar_add, toUChar_u8]

theorem key_offset_init_bounds (data : Frame) :
    0 ≤ key_offset_init data ∧ key_offset_init data < 256 := by
  rw [key_offset_init_eq]
  simp only [u8]
  omega

theorem decode_rounds_eq (data out : Frame) :
    decode_rounds data out = some (⟨key_offset_init data - 39, kiAfter 4 39,
        traceOf (key_offset_init data) 4 39⟩,
      fun j => if j.val < 13 then
          toUChar (byte3 (key_offset_init data - 3 * ((12 - j.val : Nat) : Int))
            (kiAfter 4 (3 * (12 - j.val))) (u8 (data j)))
        else out j) := by
  have hb := key_offset_init_bounds data
  unfold decode_rounds
  rw [outerLoop_eq data 13 _ out (by omega) (by simp only []; omega) (by simp only []; omega)
    (by simp only []; push_cast; omega) (by simp only []; omega)]
  simp

/-! ## The decoder in closed form -/

theorem guncon3_decode_reject (data out : Frame) (h : spec_a data ≠ key 7) :
    guncon3_decode data out = some (-1, out, []) := by
  have h2 : a_sum data ≠ u8 (key 7) := by
    rw [a_sum_eq]
    exact fun e => h (u8_injective _ _ e)
  simp only [guncon3_decode, if_pos h2]

theorem guncon3_decode_accept (data out : Frame) (h : spec_a data = key 7) :
    guncon3_decode data out = some (0,
      (fun j => if j.val < 13 then
          toUChar (byte3 (key_offset_init data - 3 * ((12 - j.val : Nat) : Int))
            (kiAfter 4 (3 * (12 - j.val))) (u8 (data j)))
        else out j),
      traceOf (key_offset_init data) 4 39) := by
  have h2 : ¬ a_sum data ≠ u8 (key 7) := by
    rw [a_sum_eq, h]
    exact fun e => e rfl
  simp only [guncon3_decode, if_neg h2, decode_rounds_eq]

theorem toUChar_byte_op (bk kr : Fin 256) (b : Int) :
    toUChar (byte_op (u8 bk) (u8 kr) b) = round8 bk kr (toUChar b) := by
  unfold byte_op round8
  rw [int_and_3]
  by_cases h0 : bk.val % 4 = 0
  · have e0 : ((bk.val % 4 : Nat) : Int) = 0 := by omega
    rw [if_pos e0, if_pos h0, toUChar_sub, toUChar_sub, toUChar_u8, toUChar_u8]
  · have e0 : ¬ ((bk.val % 4 : Nat) : Int) = 0 := by omega
    rw [if_neg e0, if_neg h0]
    by_cases h1 : bk.val % 4 = 1
    · have e1 : ((bk.val % 4 : Nat) : Int) = 1 := by omega
      rw [if_pos e1, if_pos h1, toUChar_add, toUChar_add, toUChar_u8, toUChar_u8]
    · have e1 : ¬ ((bk.val % 4 : Nat) : Int) = 1 := by omega
      rw [if_neg e1, if_neg h1, toUChar_int_xor, toUChar_int_xor, toUChar_u8, toUChar_u8]

theorem toUChar_byte3 (off ki : Int) (d : Fin 256) :
    toUChar (byte3 off ki (u8 d)) =
      round8 (tableGet (off - 3 + 0x41)) (keyGet (kiAfter ki 2))
        (round8 (tableGet (off - 2 + 0x41)) (keyGet (kiAfter ki 1))
          (round8 (tableGet (off - 1 + 0x41)) (keyGet ki) d)) := by
  simp only [byte3, toUChar_byte_op, toUChar_u8]

theorem traceOf_length (off ki : Int) (m : Nat) : (traceOf off ki m).length = m := by
  simp [traceOf]

theorem traceOf_window (off ki : Int) (a c : Nat) :
    ((traceOf off ki (a + (3 + c))).drop a).take 3 = traceOf (off - a) (kiAfter ki a) 3 := by
  rw [traceOf_add, traceOf_add (off - a) (kiAfter ki a) 3 c]
  rw [List.drop_left' (traceOf_length off ki a), List.take_left' (traceOf_length _ _ 3)]

theorem rounds8_traceOf (off : Int) (raw : Frame) (i : Fin 15) (hi : i.val < 13) :
    rounds8 (traceOf off 4 39) raw i =
      round8 (tableGet (off - 3 * ((12 - i.val : Nat) : Int) - 3 + 0x41))
          (keyGet (kiAfter (kiAfter 4 (3 * (12 - i.val))) 2))
        (round8 (tableGet (off - 3 * ((12 - i.val : Nat) : Int) - 2 + 0x41))
            (keyGet (kiAfter (kiAfter 4 (3 * (12 - i.val))) 1))
          (round8 (tableGet (off - 3 * ((12 - i.val : Nat) : Int) - 1 + 0x41))
            (keyGet (kiAfter 4 (3 * (12 - i.val)))) (raw i))) := by
  have h39 : 39 = 3 * (12 - i.val) + (3 + 3 * i.val) := by omega
  have b := kiAfter_bounds 4 (3 * (12 - i.val))
  unfold rounds8
  rw [h39, traceOf_window, traceOf_three _ _ b.1 b.2]
  simp only [List.foldl, roundAt8, Nat.cast_mul, Nat.cast_ofNat]

/-- C1: `guncon3_decode` returns on every 15-byte frame; its status is the
failure code `-1` exactly when the checksum byte `a`, computed from `b` with
every step in 8-bit wrapping arithmetic, differs from `key[7] = 0x21`, and it
is `0` exactly when `a` equals `key[7]`. -/
theorem C1_status_iff_checksum (data data_decoded : Frame) :
    key 7 = 0x21 ∧
    ∃ r, guncon3_decode data data_decoded = some r ∧
      (r.1 = -1 ↔ spec_a data ≠ key 7) ∧ (r.1 = 0 ↔ spec_a data = key 7) := by
  refine ⟨by decide, ?_⟩
  by_cases h : spec_a data = key 7
  · exact ⟨_, guncon3_decode_accept data data_decoded h, by simp [h], by simp [h]⟩
  · exact ⟨_, guncon3_decode_reject data data_decoded h, by simp [h], by simp [h]⟩

/-- C2: on every frame that authenticates, `guncon3_decode` returns status `0`
and, for every payload index `i` in `0..12`, the byte it stores in
`data_decoded[i]` (working byte carried as a wide signed integer, truncated on
the store) equals the three rounds of the trace applied to `raw[i]` with every
subtract-pair, add-pair and xor-pair reduced modulo 256. -/
theorem C2_wide_rounds_match_8bit (data data_decoded : Frame)
    (hauth : spec_a data = key 7) :
    ∃ out tr, guncon3_decode data data_decoded = some (0, out, tr) ∧ tr.length = 39 ∧
      ∀ i : Fin 15, i.val < 13 → out i = rounds8 tr data i := by
  refine ⟨_, _, guncon3_decode_accept data data_decoded hauth, traceOf_length _ _ _, ?_⟩
  intro i hi
  simp only [hi, if_true, toUChar_byte3, rounds8_traceOf _ _ _ hi]

/-- An authentic frame: the encoding of the payload `1, 2, ..., 13` with
`raw[14] = 0`. -/
theorem sampleFrame_authentic : spec_a sampleFrame = key 7 := by decide

theorem C2_wide_rounds_match_8bit_witness :
    spec_a sampleFrame = key 7 ∧
    ∃ out tr, guncon3_decode sampleFrame (frameOf []) = some (0, out, tr) ∧ tr.length = 39 ∧
      ∀ i : Fin 15, i.val < 13 → out i = rounds8 tr sampleFrame i :=
  ⟨by decide, C2_wide_rounds_match_8bit sampleFrame (frameOf []) (by decide)⟩

/-! ## Invertibility -/

theorem fin_xor_cancel_right (x y : Fin 256) : (x ^^^ y) ^^^ y = x := by
  apply Fin.ext
  rw [fin_xor_val, fin_xor_val, Nat.xor_assoc, Nat.xor_self, Nat.xor_zero]

theorem fin_xor_cancel_left (x y : Fin 256) : y ^^^ (x ^^^ y) = x := by
  apply Fin.ext
  rw [fin_xor_val, fin_xor_val, Nat.xor_comm x.val, ← Nat.xor_assoc, Nat.xor_self,
    Nat.zero_xor]

theorem round8_unround8 (bk kr d : Fin 256) : round8 bk kr (unround8 bk kr d) = d := by
  unfold round8 unround8
  by_cases h0 : bk.val % 4 = 0
  · rw [if_pos h0, if_pos h0]; abel
  · rw [if_neg h0, if_neg h0]
    by_cases h1 : bk.val % 4 = 1
    · rw [if_pos h1, if_pos h1]; abel
    · rw [if_neg h1, if_neg h1, fin_xor_cancel_right, fin_xor_cancel_right]

theorem checksum_solve (k r0 r1 r2 r3 r4 r5 r6 r7 r8 r9 r10 r11 r12 : Fin 256) :
    (((r6 ^^^ ((((((((((k + r0 - r1 - r2) ^^^ r3) + r4 + r5) ^^^ r6) ^^^ r7)
        - r10 - r11 + r8 + r9) ^^^ r12) ^^^ r12) + r11 + r10 - r9 - r8) ^^^ r7))
      - r5 - r4) ^^^ r3) + r2 + r1 - r0 = k := by
  have e1 : ∀ y a b c d : Fin 256, (y - a - b + c + d) + b + a - d - c = y := by
    intro y a b c d; abel
  have e2 : ∀ v a b : Fin 256, (v + a + b) - b - a = v := by
    intro v a b; abel
  have e3 : ∀ v a b c : Fin 256, (v + a - b - c) + c + b - a = v := by
    intro v a b c; abel
  rw [fin_xor_cancel_right, e1, fin_xor_cancel_right, fin_xor_cancel_left, e2,
    fin_xor_cancel_right, e3]

theorem spec_a_encode (d : Fin 13 → Fin 256) (e : Fin 256) : spec_a (encode d e) = key 7 := by
  have h : ∀ j : Fin 15, j.val ≠ 13 → encode d e j = encode_body d e j := by
    intro j hj
    simp only [encode, if_neg hj]
  have h13 : encode d e 13 = checksum_fix (encode_body d e) := by
    simp only [encode]
    rfl
  unfold spec_a spec_b
  rw [h13, h 0 (by decide), h 1 (by decide), h 2 (by decide), h 3 (by decide), h 4 (by decide),
    h 5 (by decide), h 6 (by decide), h 7 (by decide), h 8 (by decide), h 9 (by decide),
    h 10 (by decide), h 11 (by decide), h 12 (by decide)]
  unfold checksum_fix
  exact checksum_solve _ _ _ _ _ _ _ _ _ _ _ _ _ _

theorem key_offset_init_congr (a b : Frame) (h : a 14 = b 14) :
    key_offset_init a = key_offset_init b := by
  rw [key_offset_init_eq, key_offset_init_eq, h]

theorem encode_14 (d : Fin 13 → Fin 256) (e : Fin 256) : encode d e 14 = e := by
  unfold encode encode_body
  rw [if_neg (by decide), dif_neg (by decide), if_pos (by decide)]

theorem encode_payload (d : Fin 13 → Fin 256) (e : Fin 256) (j : Fin 15) (hj : j.val < 13) :
    encode d e j = encode_byte e j.val (d ⟨j.val, hj⟩) := by
  have h13 : j.val ≠ 13 := by omega
  simp only [encode, if_neg h13, encode_body, dif_pos hj]

/-- C3: for every 13-byte payload `d` and every value `e` of frame byte 14 the
frame `encode d e` has byte 14 equal to `e`, passes the checksum, and
`guncon3_decode` returns status `0` on it and stores exactly `d` in
`data_decoded[0..12]`; the payload `1, ..., 13` with `e = 0` is encoded as
`sampleFrame`. -/
theorem C3_decode_encode (d : Fin 13 → Fin 256) (e : Fin 256) (data_decoded : Frame) :
    encode d e 14 = e ∧ spec_a (encode d e) = key 7 ∧
    (∃ out tr, guncon3_decode (encode d e) data_decoded = some (0, out, tr) ∧
      ∀ i : Fin 13, out (Fin.castLE (by decide) i) = d i) ∧
    encode (fun i => ⟨i.val + 1, by omega⟩) 0 = sampleFrame := by
  refine ⟨encode_14 d e, spec_a_encode d e,
    ⟨_, _, guncon3_decode_accept _ data_decoded (spec_a_encode d e), ?_⟩, ?_⟩
  · intro i
    have hi : (Fin.castLE (by decide : 13 ≤ 15) i).val < 13 := i.isLt
    have ho : key_offset_init (encode d e) = offsetFor e :=
      key_offset_init_congr _ _ (encode_14 d e)
    simp only [hi, if_true, toUChar_byte3, encode_payload d e _ hi, encode_byte, ho,
      round8_unround8]
    rfl
  · decide

/-! ## Bounds and the key schedule -/

theorem traceOf_bounds (off ki : Int) (m : Nat) (p : Int × Int) (hp : p ∈ traceOf off ki m) :
    off - m + 0x41 ≤ p.1 ∧ p.1 ≤ off - 1 + 0x41 ∧ 1 ≤ p.2 ∧ p.2 ≤ 7 := by
  simp only [traceOf, List.mem_map, List.mem_range] at hp
  obtain ⟨r, hr, rfl⟩ := hp
  have b := kiAfter_bounds ki r
  simp only []
  omega

theorem traceOf_key_indices (off ki : Int) (m : Nat) :
    (traceOf off ki m).map Prod.snd = (List.range m).map (kiAfter ki) := by
  simp only [traceOf, List.map_map]
  rfl

theorem guncon3_decode_cases (data out : Frame) :
    guncon3_decode data out = some (-1, out, []) ∨
    ∃ out1, guncon3_decode data out = some (0, out1, traceOf (key_offset_init data) 4 39) := by
  by_cases h : spec_a data = key 7
  · exact Or.inr ⟨_, guncon3_decode_accept data out h⟩
  · exact Or.inl (guncon3_decode_reject data out h)

/-- C4: on every 15-byte frame the offset entering the loop lies in `0..255`,
the loops run to the end without an out-of-bounds access, they perform exactly
39 rounds, each round reads the 320-entry table at an index in `26..319` and
the key at an index in `1..7`, and `guncon3_decode` itself always returns
(either rejecting with no round run or accepting with exactly those reads). -/
theorem C4_decode_total (data data_decoded : Frame) :
    KEY_TABLE.length = 320 ∧
    0 ≤ key_offset_init data ∧ key_offset_init data < 256 ∧
    ∃ s out, decode_rounds data data_decoded = some (s, out) ∧
      s.trace.length = 39 ∧
      (∀ p ∈ s.trace, 26 ≤ p.1 ∧ p.1 ≤ 319 ∧ 1 ≤ p.2 ∧ p.2 ≤ 7) ∧
      (guncon3_decode data data_decoded = some (-1, data_decoded, []) ∨
        ∃ out1, guncon3_decode data data_decoded = some (0, out1, s.trace)) := by
  have hb := key_offset_init_bounds data
  refine ⟨KEY_TABLE_length, hb.1, hb.2, _, _, decode_rounds_eq data data_decoded,
    traceOf_length _ _ _, ?_, guncon3_decode_cases data data_decoded⟩
  intro p hp
  have h := traceOf_bounds _ _ _ p hp
  push_cast at h
  omega

/-- C7: the loops of a full decode consume exactly 39 round keys; the key index
read in round `r` is `((3 - r) mod 7) + 1`, so the sequence is
`4,3,2,1,7,6,5,4,...`, every index lies in `1..7`, the index after `1` is `7`,
and index `0` is never read. -/
theorem C7_key_index_sequence (data data_decoded : Frame) :
    ∃ s out, decode_rounds data data_decoded = some (s, out) ∧
      (guncon3_decode data data_decoded = some (-1, data_decoded, []) ∨
        ∃ out1, guncon3_decode data data_decoded = some (0, out1, s.trace)) ∧
      s.trace.length = 39 ∧
      s.trace.map Prod.snd = (List.range 39).map (fun (r : Nat) => (3 - (r : Int)) % 7 + 1) ∧
      s.trace.map Prod.snd =
        [4, 3, 2, 1, 7, 6, 5, 4, 3, 2, 1, 7, 6, 5, 4, 3, 2, 1, 7, 6, 5, 4, 3, 2, 1, 7, 6, 5,
          4, 3, 2, 1, 7, 6, 5, 4, 3, 2, 1] ∧
      ∀ k ∈ s.trace.map Prod.snd, 1 ≤ k ∧ k ≤ 7 ∧ k ≠ 0 := by
  refine ⟨_, _, decode_rounds_eq data data_decoded, guncon3_decode_cases data data_decoded,
    traceOf_length _ _ _, ?_, ?_, ?_⟩
  · rw [traceOf_key_indices]
    rfl
  · rw [traceOf_key_indices]
    decide
  · intro k hk
    simp only [List.mem_map] at hk
    obtain ⟨p, hp, rfl⟩ := hk
    have h := traceOf_bounds _ _ _ p hp
    omega

/-- C8: with the fixed session key the key-only part of the offset chain is
`0x3D`; for every frame the offset entering the loop is
`((0x3D xor raw[14]) + 0x26) mod 256`, and it is `0x63` when `raw[14] = 0`. -/
theorem C8_initial_offset (data : Frame) :
    (List.finRange 8).map key = [0x01, 0x12, 0x6F, 0x32, 0x24, 0x60, 0x17, 0x21] ∧
    key_offset_base = 0x3D ∧
    key_offset_init data = ((((0x3D ^^^ (data 14).val) + 0x26) % 256 : Nat) : Int) ∧
    key_offset_init (fun j => if j = 14 then 0 else data j) = 0x63 := by
  refine ⟨by decide, key_offset_base_eq, ?_, ?_⟩
  · rw [key_offset_init_eq]
    simp only [u8, Fin.val_add, fin_xor_val]
    rfl
  · rw [key_offset_init_eq, if_pos rfl]
    decide

/-! ## The frame callback -/

theorem guncon3_usb_irq_reject (urb : Urb) (dd : Frame) (hs : urb.status = 0)
    (hl : urb.actual_length = 15) (h : spec_a urb.transfer_buffer ≠ key 7) :
    guncon3_usb_irq urb dd = some [] := by
  simp only [guncon3_usb_irq, hs, hl, if_true, guncon3_decode_reject _ dd h]
  rfl

theorem guncon3_usb_irq_of_decode (urb : Urb) (dd out : Frame) (tr : List (Int × Int))
    (hs : urb.status = 0) (hl : urb.actual_length = 15)
    (hd : guncon3_decode urb.transfer_buffer dd = some (0, out, tr)) :
    guncon3_usb_irq urb dd = some (report out ++ [Action.usb_submit_urb]) := by
  simp only [guncon3_usb_irq, hs, hl, if_true, hd]
  rfl

theorem guncon3_usb_irq_accept (urb : Urb) (dd : Frame) (hs : urb.status = 0)
    (hl : urb.actual_length = 15) (h : spec_a urb.transfer_buffer = key 7) :
    ∃ out tr, guncon3_decode urb.transfer_buffer dd = some (0, out, tr) ∧
      guncon3_usb_irq urb dd = some (report out ++ [Action.usb_submit_urb]) := by
  refine ⟨_, _, guncon3_decode_accept _ dd h, ?_⟩
  simp only [guncon3_usb_irq, hs, hl, if_true, guncon3_decode_accept _ dd h]
  rfl

theorem guncon3_usb_irq_length (urb : Urb) (dd : Frame) (hs : urb.status = 0)
    (hl : urb.actual_length ≠ 15) :
    guncon3_usb_irq urb dd = some [Action.usb_submit_urb] := by
  simp only [guncon3_usb_irq, hs, hl, if_true, if_false]

/-- C5 (the code departs from the claim): with transport status `0` and a
15-byte frame whose checksum fails (the all-zero frame, `a = 0`), the callback
returns without any call, so the request is not resubmitted; with a length
other than 15, and with an authentic frame, it does resubmit. -/
theorem C5_rejected_frame_not_resubmitted :
    spec_a zeroFrame ≠ key 7 ∧
    guncon3_usb_irq ⟨0, 15, zeroFrame⟩ zeroFrame = some [] ∧
    guncon3_usb_irq ⟨0, 14, zeroFrame⟩ zeroFrame = some [Action.usb_submit_urb] ∧
    (∃ acts, guncon3_usb_irq ⟨0, 15, sampleFrame⟩ zeroFrame = some acts ∧
      Action.usb_submit_urb ∈ acts) := by
  refine ⟨by decide, by decide, by decide, ?_⟩
  obtain ⟨out, tr, _, h⟩ := guncon3_usb_irq_accept ⟨0, 15, sampleFrame⟩ zeroFrame rfl rfl
    sampleFrame_authentic
  exact ⟨_, h, by simp⟩

theorem int_or_shl (lo hi : Fin 256) :
    int_or (int_shl (u8 hi) 8) (u8 lo) = (lo.val : Int) + 256 * (hi.val : Int) := by
  have hlo := lo.isLt
  have hhi := hi.isLt
  have h1 : toU32 (u8 hi) = hi.val := by simp only [toU32, u8]; omega
  have h2 : toU32 (u8 lo) = lo.val := by simp only [toU32, u8]; omega
  have h3 : hi.val <<< 8 = 2 ^ 8 * hi.val := by rw [Nat.shiftLeft_eq, Nat.mul_comm]
  have h4 : int_shl (u8 hi) 8 = ((2 ^ 8 * hi.val : Nat) : Int) := by
    unfold int_shl
    rw [h1, h3]
    simp only [ofU32]
    split <;> omega
  have h5 : toU32 (int_shl (u8 hi) 8) = 2 ^ 8 * hi.val := by
    rw [h4]; simp only [toU32]; omega
  unfold int_or
  rw [h5, h2, ← Nat.mul_add_lt_is_or (by omega : lo.val < 2 ^ 8)]
  simp only [ofU32]
  split <;> omega

theorem aim_y_eq (d : Frame) : aim_y d = toInt16 (-(i16_from_le_bytes (d 5) (d 6))) := by
  have hlo := (d 5).isLt
  have hhi := (d 6).isLt
  simp only [aim_y, int_or_shl, i16_from_le_bytes, toInt16]
  split <;> omega

theorem abs_y_values_report (d : Frame) :
    abs_y_values (report d ++ [Action.usb_submit_urb]) = [aim_y d] := rfl

/-- C9 (as amended): on every authentic 15-byte frame delivered with status
`0` the callback reports exactly one aim Y value; it lies in
`[-32768, 32767]` and, whenever the signed 16-bit little-endian integer `s`
with low byte `decoded[5]` and high byte `decoded[6]` is not `-32768`, it
equals `-s`. -/
theorem C9_aim_y_negated (urb : Urb) (data_decoded : Frame) (hs : urb.status = 0)
    (hl : urb.actual_length = 15) (hauth : spec_a urb.transfer_buffer = key 7) :
    ∃ out tr acts v, guncon3_decode urb.transfer_buffer data_decoded = some (0, out, tr) ∧
      guncon3_usb_irq urb data_decoded = some acts ∧ abs_y_values acts = [v] ∧
      -32768 ≤ v ∧ v ≤ 32767 ∧
      (i16_from_le_bytes (out 5) (out 6) ≠ -32768 → v = -(i16_from_le_bytes (out 5) (out 6))) := by
  obtain ⟨out, tr, hd, hi⟩ := guncon3_usb_irq_accept urb data_decoded hs hl hauth
  refine ⟨out, tr, _, _, hd, hi, abs_y_values_report out, ?_, ?_, ?_⟩
  · rw [aim_y_eq]; simp only [toInt16]; omega
  · rw [aim_y_eq]; simp only [toInt16]; omega
  · intro hne
    have hlo := (out 5).isLt
    have hhi := (out 6).isLt
    rw [aim_y_eq]
    simp only [i16_from_le_bytes, toInt16] at hne ⊢
    split at hne <;> split <;> omega

theorem C9_aim_y_negated_witness :
    (Urb.mk 0 15 sampleFrame).status = 0 ∧ (Urb.mk 0 15 sampleFrame).actual_length = 15 ∧
    spec_a (Urb.mk 0 15 sampleFrame).transfer_buffer = key 7 ∧
    ∃ out tr acts v, guncon3_decode sampleFrame zeroFrame = some (0, out, tr) ∧
      guncon3_usb_irq ⟨0, 15, sampleFrame⟩ zeroFrame = some acts ∧ abs_y_values acts = [v] ∧
      -32768 ≤ v ∧ v ≤ 32767 ∧
      (i16_from_le_bytes (out 5) (out 6) ≠ -32768 → v = -(i16_from_le_bytes (out 5) (out 6))) :=
  ⟨rfl, rfl, by decide, C9_aim_y_negated ⟨0, 15, sampleFrame⟩ zeroFrame rfl rfl (by decide)⟩

/-- C9 (as stated) fails: the authentic frame `minYFrame` decodes to
`decoded[5] = 0x00`, `decoded[6] = 0x80`, so `s = -32768`, and the callback
reports `-32768`, not `-s = 32768`. -/
theorem C9_counterexample :
    spec_a minYFrame = key 7 ∧
    ∃ out tr acts, guncon3_decode minYFrame zeroFrame = some (0, out, tr) ∧
      out 5 = 0x00 ∧ out 6 = 0x80 ∧ i16_from_le_bytes (out 5) (out 6) = -32768 ∧
      guncon3_usb_irq ⟨0, 15, minYFrame⟩ zeroFrame = some acts ∧
      abs_y_values acts = [-32768] ∧
      abs_y_values acts ≠ [-(i16_from_le_bytes (out 5) (out 6))] := by
  refine ⟨by decide, ?_⟩
  have hd := guncon3_decode_accept minYFrame zeroFrame (by decide)
  have hi := guncon3_usb_irq_of_decode ⟨0, 15, minYFrame⟩ zeroFrame _ _ rfl rfl hd
  refine ⟨_, _, _, hd, by decide, by decide, by decide, hi, ?_, ?_⟩
  · rw [abs_y_values_report]
    decide
  · rw [abs_y_values_report]
    decide

/-! ## Sensitivity of the checksum to each of the first fourteen bytes -/

theorem fin_xor_left_inj (a b c : Fin 256) : a ^^^ c = b ^^^ c ↔ a = b := by
  constructor
  · intro h
    have h2 := congrArg (fun x => x ^^^ c) h
    simp only [fin_xor_cancel_right] at h2
    exact h2
  · intro h; rw [h]

theorem fin_xor_comm (a b : Fin 256) : a ^^^ b = b ^^^ a := by
  apply Fin.ext
  rw [fin_xor_val, fin_xor_val, Nat.xor_comm]

theorem fin_xor_right_inj (a b c : Fin 256) : c ^^^ a = c ^^^ b ↔ a = b := by
  rw [fin_xor_comm c a, fin_xor_comm c b, fin_xor_left_inj]

theorem decode_status_eq (data dd : Frame) :
    decode_status data dd = if spec_a data = key 7 then some 0 else some (-1) := by
  unfold decode_status
  by_cases h : spec_a data = key 7
  · rw [guncon3_decode_accept data dd h, if_pos h]; rfl
  · rw [guncon3_decode_reject data dd h, if_neg h]; rfl

theorem spec_a_update_inj (r : Frame) (p : Fin 15) (hp : p.val ≤ 13) (v : Fin 256)
    (h : spec_a (Function.update r p v) = spec_a r) : v = r p := by
  have hall : ∀ q : Fin 15, q.val ≤ 13 → q = 0 ∨ q = 1 ∨ q = 2 ∨ q = 3 ∨ q = 4 ∨ q = 5 ∨ q = 6
      ∨ q = 7 ∨ q = 8 ∨ q = 9 ∨ q = 10 ∨ q = 11 ∨ q = 12 ∨ q = 13 := by decide
  have hp2 := hall p hp
  rcases hp2 with rfl | rfl | rfl | rfl | rfl | rfl | rfl | rfl | rfl | rfl | rfl | rfl | rfl | rfl <;>
  · simp only [spec_a, spec_b, Function.update_same, ne_eq, Fin.reduceEq, not_false_eq_true,
      Function.update_noteq, add_left_inj, add_right_inj, sub_left_inj, sub_right_inj,
      fin_xor_left_inj, fin_xor_right_inj] at h
    exact h

theorem spec_a_update_14 (r : Frame) (v : Fin 256) :
    spec_a (Function.update r 14 v) = spec_a r := by
  simp only [spec_a, spec_b, ne_eq, Fin.reduceEq, not_false_eq_true, Function.update_noteq]

theorem flip_bit_ne (x : Fin 256) (k : Fin 8) : x ^^^ Fin.ofNat (2 ^ k.val) ≠ x := by
  intro h
  have h0 : ∀ j : Fin 8, (Fin.ofNat (2 ^ j.val) : Fin 256) ≠ 0 := by decide
  have hx : x ^^^ Fin.ofNat (2 ^ k.val) = x ^^^ 0 := by
    rw [h]
    apply Fin.ext
    rw [fin_xor_val]
    exact (Nat.xor_zero _).symm
  exact h0 k ((fin_xor_right_inj _ _ _).mp hx)

/-- C6 (as amended): for every authentic 15-byte frame and every byte position
`p` in `0..13`, each of the 8 single-bit flips of byte `p` (so at least one)
gives a frame that `guncon3_decode` rejects with status `-1`; the flips of
byte 14 leave the status at `0`. -/
theorem C6_bit_flip_rejected (raw data_decoded : Frame)
    (hauth : decode_status raw data_decoded = some 0) :
    (∀ p : Fin 15, p.val ≤ 13 →
      (∃ k : Fin 8, decode_status (flip_bit raw p k) data_decoded = some (-1)) ∧
      (∀ k : Fin 8, decode_status (flip_bit raw p k) data_decoded = some (-1))) ∧
    (∀ k : Fin 8, decode_status (flip_bit raw 14 k) data_decoded = some 0) := by
  have ha : spec_a raw = key 7 := by
    rw [decode_status_eq] at hauth
    by_contra hne
    rw [if_neg hne] at hauth
    exact absurd hauth (by decide)
  have hall : ∀ p : Fin 15, p.val ≤ 13 → ∀ k : Fin 8,
      decode_status (flip_bit raw p k) data_decoded = some (-1) := by
    intro p hp k
    rw [decode_status_eq, if_neg]
    intro hk
    rw [← ha] at hk
    exact flip_bit_ne _ k (spec_a_update_inj raw p hp _ hk)
  refine ⟨fun p hp => ⟨⟨0, hall p hp 0⟩, hall p hp⟩, ?_⟩
  intro k
  rw [decode_status_eq, flip_bit, spec_a_update_14, if_pos ha]

theorem C6_bit_flip_rejected_witness :
    decode_status sampleFrame zeroFrame = some 0 ∧
    (∀ p : Fin 15, p.val ≤ 13 →
      (∃ k : Fin 8, decode_status (flip_bit sampleFrame p k) zeroFrame = some (-1)) ∧
      (∀ k : Fin 8, decode_status (flip_bit sampleFrame p k) zeroFrame = some (-1))) ∧
    (∀ k : Fin 8, decode_status (flip_bit sampleFrame 14 k) zeroFrame = some 0) :=
  ⟨by decide, C6_bit_flip_rejected sampleFrame zeroFrame (by decide)⟩

/-- C6 (as stated) fails at byte position 14: `sampleFrame` is authentic and
none of the 8 single-bit flips of its byte 14 is rejected. -/
theorem C6_counterexample :
    decode_status sampleFrame zeroFrame = some 0 ∧
    ¬ ∃ k : Fin 8, decode_status (flip_bit sampleFrame 14 k) zeroFrame = some (-1) := by
  refine ⟨by decide, ?_⟩
  rintro ⟨k, hk⟩
  rw [decode_status_eq, flip_bit, spec_a_update_14, if_pos sampleFrame_authentic] at hk
  exact absurd hk (by decide)

/-! ## The wrapping decoder in closed form -/

theorem KEY_TABLE_periodic : ∀ j : Fin 64, KEY_TABLE.getD (256 + j.val) 0 = KEY_TABLE.getD j.val 0 := by
  set_option maxRecDepth 100000 in decide

theorem tableGet_mod (i : Int) (h0 : 0 ≤ i) (h1 : i < 320) : tableGet (i % 256) = tableGet i := by
  by_cases h : i < 256
  · rw [Int.emod_eq_of_lt h0 h]
  · have hj : (i - 256).toNat < 64 := by omega
    have hp := KEY_TABLE_periodic ⟨(i - 256).toNat, hj⟩
    simp only [] at hp
    have e1 : (i % 256).toNat = (i - 256).toNat := by omega
    have e2 : i.toNat = 256 + (i - 256).toNat := by omega
    unfold tableGet
    rw [e1, e2, hp]

theorem wrap_index (off : Int) : u8 (toUChar off + 0x41) = (off + 0x41) % 256 := by
  have h2 : (0x41 : Fin 256) = toUChar 0x41 := by decide
  rw [h2, ← toUChar_add, u8_toUChar]

theorem toUChar_pred (off : Int) : toUChar off - 1 = toUChar (off - 1) := by
  have h1 : (1 : Fin 256) = toUChar 1 := by decide
  rw [h1, ← toUChar_sub]

theorem round_wrap_eq (off ki : Int) (tr : List (Int × Int)) (byte : Int)
    (h1 : 1 ≤ ki) (h7 : ki ≤ 7)
    (h0 : 0 ≤ off - 1 + 0x41) (h320 : off - 1 + 0x41 < 320) :
    round_wrap ⟨toUChar off, ki, tr⟩ byte = some (⟨toUChar (off - 1), kiAfter ki 1,
        tr ++ [((off - 1 + 0x41) % 256, ki)]⟩,
      byte_op (u8 (tableGet (off - 1 + 0x41))) (u8 (keyGet ki)) byte) := by
  have hk : (if ki - 1 = 0 then 7 else ki - 1) = kiAfter ki 1 := by
    simp only [kiAfter]; split <;> omega
  have hr : tableRead ((off - 1 + 0x41) % 256) = some (u8 (tableGet (off - 1 + 0x41))) := by
    rw [tableRead_eq _ (by omega) (by omega), tableGet_mod _ h0 h320]
  simp only [round_wrap, toUChar_pred, wrap_index, hr,
    keyRead_eq _ (by omega : 0 ≤ ki) (by omega), hk]

theorem traceWrap_three (off ki : Int) (h1 : 1 ≤ ki) (h7 : ki ≤ 7) :
    traceWrap off ki 3 =
      [((off - 1 + 0x41) % 256, ki), ((off - 2 + 0x41) % 256, kiAfter ki 1),
        ((off - 3 + 0x41) % 256, kiAfter ki 2)] := by
  unfold traceWrap
  rw [traceOf_three off ki h1 h7]
  rfl

theorem traceWrap_add (off ki : Int) (a b : Nat) :
    traceWrap off ki (a + b) = traceWrap off ki a ++ traceWrap (off - a) (kiAfter ki a) b := by
  simp only [traceWrap, traceOf_add, List.map_append]

theorem innerLoop_wrap_eq (off ki : Int) (tr : List (Int × Int)) (byte : Int)
    (h1 : 1 ≤ ki) (h7 : ki ≤ 7)
    (h0 : 0 ≤ off - 3 + 0x41) (h320 : off - 1 + 0x41 < 320) :
    innerLoop_wrap 4 ⟨toUChar off, ki, tr⟩ byte = some (⟨toUChar (off - 3), kiAfter ki 3,
        tr ++ traceWrap off ki 3⟩, byte3 off ki byte) := by
  have b1 := kiAfter_bounds ki 1
  have b2 := kiAfter_bounds ki 2
  have e1 : off - 1 - 1 = off - 2 := by omega
  have e2 : off - 2 - 1 = off - 3 := by omega
  simp only [innerLoop_wrap]
  rw [if_pos (by omega), round_wrap_eq off ki tr byte h1 h7 (by omega) h320]
  simp only []
  rw [if_pos (by omega), round_wrap_eq _ _ _ _ b1.1 b1.2 (by omega) (by omega)]
  simp only []
  rw [if_pos (by omega), round_wrap_eq _ _ _ _ (by simp only [kiAfter_add]; exact b2.1)
    (by simp only [kiAfter_add]; exact b2.2) (by omega) (by omega)]
  simp only [if_neg (by omega : ¬ (0 + 1 > 1)), kiAfter_add, e1, e2, traceWrap_three _ _ h1 h7,
    byte3, List.append_assoc, List.singleton_append, List.cons_append, List.nil_append]

theorem outerLoop_wrap_zero (data : Frame) (s : WrapState) (out : Frame) :
    outerLoop_wrap data 0 s out = some (s, out) := rfl

theorem outerLoop_wrap_succ (data : Frame) (x : Nat) (s : WrapState) (out : Frame) :
    outerLoop_wrap data (x + 1) s out =
      match frameRead data x with
      | none => none
      | some byte =>
        match innerLoop_wrap 4 s byte with
        | none => none
        | some (s1, byte1) =>
          match frameWrite out x byte1 with
          | none => none
          | some out1 => outerLoop_wrap data x s1 out1 := rfl

theorem outerLoop_wrap_eq (data : Frame) : ∀ (n : Nat) (off ki : Int) (tr : List (Int × Int))
    (out : Frame), n ≤ 15 → 1 ≤ ki → ki ≤ 7 →
    0 ≤ off - 3 * (n : Int) + 0x41 → off + 0x41 ≤ 320 →
    outerLoop_wrap data n ⟨toUChar off, ki, tr⟩ out =
      some (⟨toUChar (off - 3 * (n : Int)), kiAfter ki (3 * n), tr ++ traceWrap off ki (3 * n)⟩,
      fun j => if j.val < n then
          toUChar (byte3 (off - 3 * ((n - 1 - j.val : Nat) : Int))
            (kiAfter ki (3 * (n - 1 - j.val))) (u8 (data j)))
        else out j) := by
  intro n
  induction n with
  | zero =>
    intro off ki tr out _ h1 h7 _ _
    have ht : traceWrap off ki (3 * 0) = [] := rfl
    have hf : (fun j : Fin 15 => if j.val < 0 then
          toUChar (byte3 (off - 3 * ((0 - 1 - j.val : Nat) : Int))
            (kiAfter ki (3 * (0 - 1 - j.val))) (u8 (data j)))
        else out j) = out := by
      funext j
      rw [if_neg (Nat.not_lt_zero _)]
    rw [hf, ht, Nat.mul_zero, kiAfter_zero _ h1 h7, List.append_nil]
    simp only [outerLoop_wrap_zero, Nat.cast_zero, mul_zero, sub_zero]
  | succ x ih =>
    intro off ki tr out hn h1 h7 h0 h320
    have hx : x < 15 := by omega
    have b3 := kiAfter_bounds ki 3
    rw [outerLoop_wrap_succ, frameRead_eq data x hx]
    simp only []
    rw [innerLoop_wrap_eq off ki tr _ h1 h7 (by push_cast at h0; omega) (by omega)]
    simp only []
    rw [frameWrite_eq out x hx]
    simp only []
    rw [ih _ _ _ _ (by omega) b3.1 b3.2 (by push_cast at h0; omega) (by omega)]
    simp only [kiAfter_add]
    congr 1
    congr 1
    · congr 1
      · congr 1; push_cast; omega
      · congr 1; omega
      · rw [List.append_assoc, show 3 * (x + 1) = 3 + 3 * x by omega, traceWrap_add]
        simp
    · funext j
      by_cases hj : j.val < x
      · have hj2 : j.val < x + 1 := by omega
        simp only [hj, hj2, if_true]
        have e1 : 3 + 3 * (x - 1 - j.val) = 3 * (x + 1 - 1 - j.val) := by omega
        have e2 : off - 3 - 3 * ((x - 1 - j.val : Nat) : Int)
            = off - 3 * ((x + 1 - 1 - j.val : Nat) : Int) := by omega
        rw [e1, e2]
      · by_cases hj3 : j.val = x
        · have hj2 : j.val < x + 1 := by omega
          have hj4 : j = ⟨x, hx⟩ := Fin.ext hj3
          simp only [hj, hj2, hj3, if_true, if_false]
          subst hj4
          simp [kiAfter_zero _ h1 h7]
        · have hj2 : ¬ j.val < x + 1 := by omega
          simp only [hj, hj2, hj3, if_false]

theorem decode_rounds_wrap_eq (data out : Frame) :
    decode_rounds_wrap data out = some (⟨toUChar (key_offset_init data - 39), kiAfter 4 39,
        traceWrap (key_offset_init data) 4 39⟩,
      fun j => if j.val < 13 then
          toUChar (byte3 (key_offset_init data - 3 * ((12 - j.val : Nat) : Int))
            (kiAfter 4 (3 * (12 - j.val))) (u8 (data j)))
        else out j) := by
  have hb := key_offset_init_bounds data
  unfold decode_rounds_wrap
  rw [outerLoop_wrap_eq data 13 _ _ _ out (by omega) (by omega) (by omega)
    (by push_cast; omega) (by omega)]
  simp

theorem traceWrap_reads (off ki : Int) (m : Nat) (h0 : 0 ≤ off - m + 0x41)
    (h320 : off + 0x41 ≤ 320) :
    (traceWrap off ki m).map (fun p => tableRead p.1)
      = (traceOf off ki m).map (fun p => tableRead p.1) := by
  unfold traceWrap
  rw [List.map_map]
  apply List.map_congr_left
  intro p hp
  have hbd := traceOf_bounds off ki m p hp
  simp only [Function.comp]
  rw [tableRead_eq _ (by omega) (by omega), tableRead_eq _ (by omega) (by omega),
    tableGet_mod _ (by omega) (by omega)]

theorem traceWrap_key_indices (off ki : Int) (m : Nat) :
    (traceWrap off ki m).map Prod.snd = (traceOf off ki m).map Prod.snd := by
  unfold traceWrap
  rw [List.map_map]
  rfl

/-- C10: the table entries `256..319` repeat the entries `0..63`; on every
15-byte frame the decoder whose offset is an 8-bit wrapping integer (table
index `offset + 0x41` taken modulo 256, hence in `0..255`) runs its 39 rounds,
reads in each round the same table byte and the same key index as the loops of
`guncon3_decode`, and stores the same decoded buffer; with the checksum gate
in front, both return the same status and buffer. -/
theorem C10_wrapping_offset_agrees (data data_decoded : Frame) :
    (∀ j : Fin 64, KEY_TABLE.getD (256 + j.val) 0 = KEY_TABLE.getD j.val 0) ∧
    ∃ s s8 out, decode_rounds data data_decoded = some (s, out) ∧
      decode_rounds_wrap data data_decoded = some (s8, out) ∧
      s.trace.length = 39 ∧ s8.trace.length = 39 ∧
      s8.trace.map (fun p => tableRead p.1) = s.trace.map (fun p => tableRead p.1) ∧
      (∀ p ∈ s8.trace, 0 ≤ p.1 ∧ p.1 ≤ 255) ∧
      s8.trace.map Prod.snd = s.trace.map Prod.snd ∧
      (decode_wrap data data_decoded).map (fun r => (r.1, r.2.1))
        = (guncon3_decode data data_decoded).map (fun r => (r.1, r.2.1)) := by
  have hb := key_offset_init_bounds data
  refine ⟨KEY_TABLE_periodic, _, _, _, decode_rounds_eq data data_decoded,
    decode_rounds_wrap_eq data data_decoded, traceOf_length _ _ _, ?_, ?_, ?_, ?_, ?_⟩
  · simp only [traceWrap, List.length_map, traceOf_length]
  · exact traceWrap_reads _ _ _ (by push_cast; omega) (by omega)
  · intro p hp
    simp only [traceWrap, List.mem_map] at hp
    obtain ⟨q, _, rfl⟩ := hp
    simp only []
    omega
  · exact traceWrap_key_indices _ _ _
  · unfold decode_wrap guncon3_decode
    rw [decode_rounds_wrap_eq, decode_rounds_eq]
    split <;> rfl

/-! ## The checksum as a function of one byte -/

theorem spec_a_update_injective (raw : Frame) (p : Fin 15) (hp : p.val ≤ 13) :
    Function.Injective (fun v => spec_a (Function.update raw p v)) := by
  intro v w h
  simp only [] at h
  have h2 : spec_a (Function.update (Function.update raw p w) p v)
      = spec_a (Function.update raw p w) := by
    rw [Function.update_idem]
    exact h
  have h3 := spec_a_update_inj (Function.update raw p w) p hp v h2
  rw [Function.update_same] at h3
  exact h3

theorem a_sum_update_ne (raw : Frame) (p : Fin 15) (hp : p.val ≤ 13) (v : Fin 256)
    (hv : v ≠ raw p) : a_sum (Function.update raw p v) ≠ a_sum raw := by
  intro h
  rw [a_sum_eq, a_sum_eq] at h
  exact hv (spec_a_update_inj raw p hp v (u8_injective _ _ h))

/-- C11: for every 15-byte frame and every byte position `p` in `0..13`, with
the other bytes fixed the checksum `a_sum` computed by `guncon3_decode` is an
injective function of byte `p`, and as a byte-valued function it is bijective;
replacing byte `p` alone by a different value changes `a_sum`, so such a change
to an authentic frame is rejected with status `-1`; in particular this holds
for byte 0.  Replacing byte 14 alone never changes `a_sum`. -/
theorem C11_checksum_injective_per_byte (raw data_decoded : Frame) (p : Fin 15)
    (hp : p.val ≤ 13) :
    Function.Injective (fun v => a_sum (Function.update raw p v)) ∧
    Function.Bijective (fun v => toUChar (a_sum (Function.update raw p v))) ∧
    (∀ v, v ≠ raw p → a_sum (Function.update raw p v) ≠ a_sum raw) ∧
    (∀ v, v ≠ raw p → decode_status raw data_decoded = some 0 →
      decode_status (Function.update raw p v) data_decoded = some (-1)) ∧
    (∀ v, v ≠ raw 0 → a_sum (Function.update raw 0 v) ≠ a_sum raw) ∧
    (∀ v, a_sum (Function.update raw 14 v) = a_sum raw) := by
  have hinj := spec_a_update_injective raw p hp
  refine ⟨?_, ?_, a_sum_update_ne raw p hp, ?_, a_sum_update_ne raw 0 (by decide), ?_⟩
  · intro v w h
    simp only [a_sum_eq] at h
    exact hinj (u8_injective _ _ h)
  · have he : (fun v => toUChar (a_sum (Function.update raw p v)))
        = (fun v => spec_a (Function.update raw p v)) := by
      funext v
      rw [a_sum_eq, toUChar_u8]
    rw [he]
    exact Finite.injective_iff_bijective.mp hinj
  · intro v hv hauth
    have ha : spec_a raw = key 7 := by
      rw [decode_status_eq] at hauth
      by_contra hne
      rw [if_neg hne] at hauth
      exact absurd hauth (by decide)
    rw [decode_status_eq, if_neg]
    intro hk
    rw [← ha] at hk
    exact hv (spec_a_update_inj raw p hp v hk)
  · intro v
    rw [a_sum_eq, a_sum_eq, spec_a_update_14]

theorem C11_checksum_injective_per_byte_witness :
    (0 : Fin 15).val ≤ 13 ∧
    Function.Injective (fun v => a_sum (Function.update sampleFrame 0 v)) ∧
    Function.Bijective (fun v => toUChar (a_sum (Function.update sampleFrame 0 v))) ∧
    (∀ v, v ≠ sampleFrame 0 → a_sum (Function.update sampleFrame 0 v) ≠ a_sum sampleFrame) ∧
    (∀ v, v ≠ sampleFrame 0 → decode_status sampleFrame zeroFrame = some 0 →
      decode_status (Function.update sampleFrame 0 v) zeroFrame = some (-1)) ∧
    (∀ v, v ≠ sampleFrame 0 → a_sum (Function.update sampleFrame 0 v) ≠ a_sum sampleFrame) ∧
    (∀ v, a_sum (Function.update sampleFrame 14 v) = a_sum sampleFrame) :=
  ⟨by decide, C11_checksum_injective_per_byte sampleFrame zeroFrame 0 (by decide)⟩

end Guncon3
